import Mathlib

/-!
# Verification of the persistent-ledger core (`blockchain.go`)

A shallow embedding of the repository's single source file: the `Blockchain`
ledger over a transactional key-value store, the backward `BlockchainIterator`,
and the UTXO resolver (`FindUnspendTransaction` / `FindUTXO`).

External collaborators (block factory, codec, transaction predicates) are not
in the source tree; they are modelled from the spec, each marked
`Modelled from the spec:` in its doc comment. Byte sequences (hashes,
transaction IDs) are modelled as `String`; the Go codec `Serialize` /
`Deserialize` is total and lossless per the spec, so stored block bytes are
modelled as the block itself.
-/

set_option autoImplicit false

/-- Modelled from the spec: `TXOutput` is "a value locked to a spending
predicate evaluable against an address string". The predicate compares the
locking script against the address (source file for `TXoutput` is outside
`src/`). -/
structure TXoutput where
  Value : Nat
  ScriptPubKey : String
deriving DecidableEq, Repr

/-- Modelled from the spec: `Output.CanBeUnlockedWith(address) -> bool`. -/
def TXoutput.CanBeUnlockedWith (o : TXoutput) (address : String) : Bool :=
  o.ScriptPubKey == address

/-- Modelled from the spec: `TXInput` is "a reference to a prior transaction's
output — `TXid` and `Voutindex` — plus an unlock predicate evaluable against
an address". `Voutindex` is a Go `int`, modelled as `Int`. -/
structure TXinput where
  TXid : String
  Voutindex : Int
  ScriptSig : String
deriving DecidableEq, Repr

/-- Modelled from the spec: `Input.CanUnlockOutputWith(address) -> bool`. -/
def TXinput.CanUnlockOutputWith (i : TXinput) (address : String) : Bool :=
  i.ScriptSig == address

/-- Modelled from the spec: a `Transaction` has an `ID` (byte sequence,
equality-comparable), an ordered input list `In`, an ordered output list
`Out`, and is "classified as coinbase (no real inputs — a reward/mint
transaction) or ordinary"; the classification is exposed only through
`Transaction.IsCoinbase() -> bool`, so it is modelled as a field. -/
structure Transaction where
  ID : String
  In : List TXinput
  Out : List TXoutput
  coinbase : Bool
deriving DecidableEq, Repr

/-- Modelled from the spec: `Transaction.IsCoinbase() -> bool`. -/
def Transaction.IsCoinbase (t : Transaction) : Bool :=
  t.coinbase

/-- Modelled from the spec: a `Block` has a content-derived `Hash`, a
`PrevBlockHash` ("empty exactly for the genesis block"), and an ordered
sequence of transactions. -/
structure Block where
  Hash : String
  PrevBlockHash : String
  Transactions : List Transaction
deriving DecidableEq, Repr

/-! ## The spent-output map

`blockchain.go` lines 194-195: `spendTxos := make(map[string][]int)` maps a
transaction ID to the list of output positions already known spent. A Go map
read of a missing key yields `nil`; the assignment
`spendTxos[k] = append(spendTxos[k], v)` appends to the existing slice or
creates the entry. Modelled as an association list. -/

/-- The `map[string][]int` of spent output positions, keyed by transaction ID. -/
def SpentMap := List (String × List Int)

/-- Reading `spendTxos[txID]`: the recorded positions, `[]` when the key is
absent (Go's `nil` slice, over which the skip loop does nothing). -/
def spentIdxs : SpentMap → String → List Int
  | [], _ => []
  | (k, l) :: rest, txID => if k = txID then l else spentIdxs rest txID

/-- `spendTxos[k] = append(spendTxos[k], v)` (blockchain.go line 241). -/
def spentAppend : SpentMap → String → Int → SpentMap
  | [], k, v => [(k, [v])]
  | (k', l) :: rest, k, v =>
    if k' = k then (k', l ++ [v]) :: rest else (k', l) :: spentAppend rest k v

/-! ## The UTXO resolver (`FindUnspendTransaction`, lines 189-255) -/

/-- The labelled `Outputs:` loop (lines 208-230): walk the outputs of `tx`
with their index; skip an output whose index is recorded in `spent`
(`continue Outputs`), otherwise append `tx` to the result once for each
output whose unlock predicate accepts `address`. -/
def scanOuts (address : String) (tx : Transaction) (spent : List Int) :
    Nat → List TXoutput → List Transaction
  | _, [] => []
  | outIdx, o :: rest =>
    (if (outIdx : Int) ∈ spent then []
     else if o.CanBeUnlockedWith address then [tx] else []) ++
    scanOuts address tx spent (outIdx + 1) rest

/-- The input loop (lines 234-243): for each input whose unlock predicate
accepts `address`, record `(input.TXid, input.Voutindex)` in the spent map. -/
def recordInputs (address : String) : SpentMap → List TXinput → SpentMap
  | m, [] => m
  | m, i :: rest =>
    recordInputs address
      (if i.CanUnlockOutputWith address then spentAppend m i.TXid i.Voutindex else m)
      rest

/-- The per-transaction body (lines 204-244): scan the outputs against the
incoming spent map, then — only when the transaction is not coinbase
(line 233) — record its inputs into the map. -/
def processTx (address : String) (acc : List Transaction × SpentMap)
    (tx : Transaction) : List Transaction × SpentMap :=
  (acc.1 ++ scanOuts address tx (spentIdxs acc.2 tx.ID) 0 tx.Out,
   if tx.IsCoinbase then acc.2 else recordInputs address acc.2 tx.In)

/-- The outer block loop (lines 199-252) over the blocks in the order the
iterator yields them (newest to oldest): process every transaction of the
block, then stop once the block with empty `PrevBlockHash` (genesis) has
been processed. -/
def processChain (address : String) (acc : List Transaction × SpentMap) :
    List Block → List Transaction × SpentMap
  | [] => acc
  | b :: rest =>
    let acc' := b.Transactions.foldl (processTx address) acc
    if b.PrevBlockHash = "" then acc' else processChain address acc' rest

/-- `FindUnspendTransaction` (lines 189-255) applied to the backward walk
of the chain (newest block first): the collected transactions that contain
an output for `address` not yet seen spent. -/
def FindUnspendTransaction (address : String) (chain : List Block) :
    List Transaction :=
  (processChain address ([], ([] : SpentMap)) chain).1

/-- `FindUTXO` (lines 260-278): call `FindUnspendTransaction`, then re-scan
each returned transaction's outputs and collect every output whose unlock
predicate accepts the address — a second, independent filter with no
spent-position check. -/
def FindUTXO (addr : String) (chain : List Block) : List TXoutput :=
  (FindUnspendTransaction addr chain).foldl
    (fun acc tx => acc ++ tx.Out.filter (fun o => o.CanBeUnlockedWith addr)) []

/-! ## The persistent store and the ledger

The bolt bucket `"blocks"` holds one entry per block, keyed by the block's
hash, plus the reserved key `"latest"` holding the current head hash. The
codec is total and lossless per the spec, so block values are stored as
blocks; the reserved key (whose value is a raw hash, not a block) is
modelled as a separate field of the store. -/

/-- The durable contents of the `"blocks"` bucket: the block entries
(key = block hash) and the value under the reserved `"latest"` key
(`none` when the key was never written; a bolt `Get` of a missing key
returns `nil`, modelled downstream as the empty string). -/
structure Store where
  blocks : List (String × Block)
  latest : Option String
deriving DecidableEq

/-- `bucket.Get(hash)` over the block entries: first entry with the key,
`none` when absent (bolt returns `nil`). -/
def lookupBlock : List (String × Block) → String → Option Block
  | [], _ => none
  | (k, b) :: rest, h => if k = h then some b else lookupBlock rest h

/-- Look a block up in the store by hash. -/
def Store.find (s : Store) (h : String) : Option Block :=
  lookupBlock s.blocks h

/-- `bucket.Put(block.Hash, block.Serialize())`: overwrite-or-insert,
modelled by prepending (lookup takes the first match). -/
def Store.putBlock (s : Store) (b : Block) : Store :=
  { s with blocks := (b.Hash, b) :: s.blocks }

/-- `bucket.Put([]byte("latest"), hash)`. -/
def Store.putLatest (s : Store) (h : String) : Store :=
  { s with latest := some h }

/-- `bucket.Get([]byte("latest"))` as the byte string AddBlock feeds to the
block factory: the stored hash, or `nil` (empty) when the key is absent. -/
def Store.latestStr (s : Store) : String :=
  match s.latest with
  | some h => h
  | none => ""

/-- The `Blockchain` struct (blockchain.go lines 14-17): the in-memory head
hash `topHash` and the store handle. -/
structure Blockchain where
  topHash : String
  db : Store
deriving DecidableEq

/-- `GetTopHash` (lines 29-31): the in-memory head hash, no store access. -/
def Blockchain.GetTopHash (bc : Blockchain) : String :=
  bc.topHash

/-- Modelled from the spec: the external factory
`NewBlock(prevHash, transactions) -> Block` returns a fully formed,
content-addressed block; its hash is produced by the factory and is a
parameter of the model. -/
def NewBlock (h : String) (prevHash : String) (txs : List Transaction) : Block :=
  { Hash := h, PrevBlockHash := prevHash, Transactions := txs }

/-- Modelled from the spec: the external factory `GenesisBlock() -> Block`
returns the unique block with empty `PrevBlockHash`; its hash and
transactions are parameters of the model. -/
def GenesisBlock (h : String) (txs : List Transaction) : Block :=
  { Hash := h, PrevBlockHash := "", Transactions := txs }

/-- `CreateBlockchain` (lines 36-86), fresh-store branch: create the bucket,
persist the genesis block under its hash and its hash under `"latest"`, and
set the in-memory head to the genesis hash. -/
def CreateBlockchain (gh : String) (gtxs : List Transaction) : Blockchain :=
  let g := GenesisBlock gh gtxs
  { topHash := g.Hash,
    db := { blocks := [(g.Hash, g)], latest := some g.Hash } }

/-- `AddBlock` (lines 91-133). Mirrors the source control flow: (1) a read
transaction fetches the value under `"latest"`; (2) the factory builds the
new block on that value; (3) inside the write (`Update`) closure, the block
and the new `"latest"` value are put and the in-memory `topHash` is
assigned — all before the closure returns and the transaction commits.
`commitOk` models whether that write transaction commits durably: on
failure bolt rolls the store back, but the in-memory assignment has already
happened, and the `Update` call's error is discarded (the `err` checked at
line 128 is the earlier `View` error), so the function still returns
`true`. -/
def Blockchain.AddBlock (bc : Blockchain) (h : String) (txs : List Transaction)
    (commitOk : Bool) : Blockchain × Bool :=
  let tophash := bc.db.latestStr
  let newBlock := NewBlock h tophash txs
  let db2 := (bc.db.putBlock newBlock).putLatest newBlock.Hash
  if commitOk then
    ({ topHash := newBlock.Hash, db := db2 }, true)
  else
    ({ topHash := newBlock.Hash, db := bc.db }, true)

/-- `BlockchainIterator` (lines 19-22): the cursor hash and the store. -/
structure BlockchainIterator where
  currentHash : String
  db : Store

/-- `Iterator` (lines 140-142): a fresh walker seeded at the in-memory head. -/
def Blockchain.Iterator (bc : Blockchain) : BlockchainIterator :=
  { currentHash := bc.topHash, db := bc.db }

/-- `Next` (lines 147-167): read the block stored under the cursor hash,
advance the cursor to its `PrevBlockHash`, return the block. A missing key
makes the Go code panic inside `Deserialize`; modelled as `none`. -/
def BlockchainIterator.Next (it : BlockchainIterator) :
    Option (Block × BlockchainIterator) :=
  match it.db.find it.currentHash with
  | none => none
  | some b => some (b, { currentHash := b.PrevBlockHash, db := it.db })

/-- The caller loop around `Next` (as in `IterateBlockchain` lines 172-184
and `FindUnspendTransaction` lines 199-252): keep calling `Next` and stop
after the block whose `PrevBlockHash` is empty. The fuel bounds the number
of `Next` calls; a completed walk within its fuel is exactly the Go loop. -/
def walk : Nat → BlockchainIterator → List Block
  | 0, _ => []
  | n + 1, it =>
    match it.Next with
    | none => []
    | some (b, it') => b :: (if b.PrevBlockHash = "" then [] else walk n it')

/-! ## Scenario data and chain-shape definitions used by the claim theorems -/

/-- The C2 scenario: genesis coinbase `c2T1` with two outputs `O0 = ⟨5, "A"⟩`
and `O1 = ⟨7, "A"⟩` to address `"A"`. -/
def c2T1 : Transaction := ⟨"t1", [], [⟨5, "A"⟩, ⟨7, "A"⟩], true⟩

/-- The C2 scenario: `c2T2` spends `O0` via an input referencing
`("t1", 0)` unlockable by `"A"`, paying `"B"`. -/
def c2T2 : Transaction := ⟨"t2", [⟨"t1", 0, "A"⟩], [⟨3, "B"⟩], false⟩

/-- The C2 scenario chain, newest block first. -/
def c2Chain : List Block := [⟨"h2", "h1", [c2T2]⟩, ⟨"h1", "", [c2T1]⟩]

/-- The C4 scenario transaction: two outputs to the same address, neither
ever spent (the transaction sits alone in the genesis block). -/
def twoOutTx (id A : String) (v0 v1 : Nat) : Transaction :=
  ⟨id, [], [⟨v0, A⟩, ⟨v1, A⟩], true⟩

/-- The C4 scenario chain: a single genesis block holding `twoOutTx`. -/
def twoOutChain (h id A : String) (v0 v1 : Nat) : List Block :=
  [⟨h, "", [twoOutTx id A v0 v1]⟩]

/-- A transaction whose single input references its own single output. -/
def selfSpendTx : Transaction := ⟨"t", [⟨"t", 0, "w"⟩], [⟨5, "w"⟩], false⟩

/-- A coinbase transaction carrying a (nominally ignored) input entry. -/
def coinbaseWithInputs : Transaction := ⟨"c", [⟨"x", 3, "w"⟩], [⟨10, "w"⟩], true⟩

/-- C1 scenario: `T1`, a genesis coinbase with exactly one output `O0`
locked to address `A`. -/
def spendT1 (idT1 A : String) (v0 : Nat) : Transaction :=
  ⟨idT1, [], [⟨v0, A⟩], true⟩

/-- C1 scenario: `T2` spends `O0` through an input referencing
`(idT1, 0)` whose unlock predicate accepts `A`, and pays only `B`. -/
def spendT2 (idT2 idT1 A B : String) (v1 : Nat) : Transaction :=
  ⟨idT2, [⟨idT1, 0, A⟩], [⟨v1, B⟩], false⟩

/-- C1 scenario chain, newest first: the block carrying `T2` on top of the
genesis block carrying `T1`. -/
def spendChain (h1 h2 idT1 idT2 A B : String) (v0 v1 : Nat) : List Block :=
  [⟨h2, h1, [spendT2 idT2 idT1 A B v1]⟩, ⟨h1, "", [spendT1 idT1 A v0]⟩]

/-- The hash of the newest block of a chain list (empty string for the
empty list, matching a bolt `Get` miss). -/
def headHash : List Block → String
  | [] => ""
  | b :: _ => b.Hash

/-- The chain shape, newest first: every block's `PrevBlockHash` is the next
block's `Hash` and is nonempty, and the last block has an empty
`PrevBlockHash` (genesis). -/
def ChainLinked : List Block → Prop
  | [] => True
  | [b] => b.PrevBlockHash = ""
  | b :: b' :: rest =>
    b.PrevBlockHash = b'.Hash ∧ b.PrevBlockHash ≠ "" ∧ ChainLinked (b' :: rest)

/-- The ledger state faithfully holds the chain `bs` (newest first): head
pointers agree with the newest block, the list is chain-linked with fresh
nonempty hashes, and every chain block is stored under its hash. -/
def Represents (bs : List Block) (bc : Blockchain) : Prop :=
  bc.topHash = headHash bs ∧
  bc.db.latest = some (headHash bs) ∧
  bs ≠ [] ∧
  ChainLinked bs ∧
  (bs.map Block.Hash).Nodup ∧
  "" ∉ bs.map Block.Hash ∧
  ∀ b ∈ bs, bc.db.find b.Hash = some b

/-- A sequence of `AddBlock` calls, each given its fresh block hash and its
transactions, all with committing writes. -/
def addBlocks (bc : Blockchain) : List (String × List Transaction) → Blockchain
  | [] => bc
  | (h, txs) :: rest => addBlocks (bc.AddBlock h txs true).1 rest

/-- The chain list (newest first) produced by the same `AddBlock` sequence:
each step stacks the factory's block for the current head on top. -/
def extendChain (bs : List Block) : List (String × List Transaction) → List Block
  | [] => bs
  | (h, txs) :: rest => extendChain (NewBlock h (headHash bs) txs :: bs) rest

/-- The appended hashes are pairwise distinct, nonempty, and unused. -/
def FreshFor : List (String × List Transaction) → List String → Prop
  | [], _ => True
  | (h, _) :: rest, used => h ≠ "" ∧ h ∉ used ∧ FreshFor rest (h :: used)

/-! ## Claim theorems and supporting lemmas -/

/-- Claim C10: `AddBlock` returns `true` on every invocation that returns
normally — whether or not the write transaction commits — because the
`Update` error is discarded (the `err` checked after the write is the
earlier read transaction's error), so a commit failure is neither reported
through the return value nor through a panic. -/
theorem c10_addBlock_always_returns_true (bc : Blockchain) (h : String)
    (txs : List Transaction) (commitOk : Bool) :
    (bc.AddBlock h txs commitOk).2 = true := by
  cases commitOk <;> rfl

/-- Claim C3 (code bug): on a fresh chain, an `AddBlock` whose write
transaction fails to commit (`commitOk = false`) leaves the store unchanged
but has already mutated the in-memory `topHash` to the new block's hash —
the assignment happens inside the update closure, before commit — and still
reports success. This contradicts the claim that the head is updated only
after durable commit and left unchanged on failure. -/
theorem c3_head_mutated_on_failed_commit :
    ((CreateBlockchain "g" []).AddBlock "h1" [] false).2 = true ∧
    ((CreateBlockchain "g" []).AddBlock "h1" [] false).1.db
      = (CreateBlockchain "g" []).db ∧
    ((CreateBlockchain "g" []).AddBlock "h1" [] false).1.topHash = "h1" ∧
    ((CreateBlockchain "g" []).AddBlock "h1" [] false).1.topHash
      ≠ (CreateBlockchain "g" []).topHash := by
  decide

/-- Claim C2 (code bug): with `O0` spent and `O1` unspent, the claim demands
`FindUTXO("A") = [O1]`, but the code's second pass re-filters the returned
transaction's outputs only by the unlock predicate with no spent-position
check, so the spent `O0 = ⟨5, "A"⟩` is returned as well. -/
theorem c2_findUTXO_returns_spent_output :
    FindUnspendTransaction "A" c2Chain = [c2T1] ∧
    FindUTXO "A" c2Chain = [⟨5, "A"⟩, ⟨7, "A"⟩] := by
  decide

/-- Claim C4: a transaction with two unspent outputs payable to `A` appears
exactly twice in `FindUnspendTransaction A` — once per qualifying output,
with no de-duplication. -/
theorem c4_unspent_tx_listed_once_per_output (h id A : String) (v0 v1 : Nat) :
    FindUnspendTransaction A (twoOutChain h id A v0 v1)
      = [twoOutTx id A v0 v1, twoOutTx id A v0 v1] := by
  simp [FindUnspendTransaction, processChain, processTx, scanOuts, spentIdxs,
    twoOutChain, twoOutTx, TXoutput.CanBeUnlockedWith]

/-- Claim C9: the prev-hash `AddBlock` hands to the block factory is the
value read from the store's reserved `"latest"` key, not the in-memory
`topHash`: two ledger states agreeing on the stored `"latest"` value yield
the same stored new block (hence the same parent hash), whatever their
`topHash` fields. -/
theorem c9_parent_read_from_store (bc1 bc2 : Blockchain) (h : String)
    (txs : List Transaction) (hl : bc1.db.latest = bc2.db.latest) :
    (bc1.AddBlock h txs true).1.db.find h
      = (bc2.AddBlock h txs true).1.db.find h ∧
    (bc1.AddBlock h txs true).1.db.find h
      = some (NewBlock h bc1.db.latestStr txs) := by
  constructor <;>
    simp [Blockchain.AddBlock, Store.find, Store.putBlock, Store.putLatest,
      lookupBlock, NewBlock, Store.latestStr, hl]

/-- Witness for C9: two concrete states sharing the stored `"latest"` value
`"g"` but holding different in-memory heads build the new block on the same
parent. -/
theorem c9_parent_read_from_store_witness :
    (⟨"x", ⟨[], some "g"⟩⟩ : Blockchain).topHash
      ≠ (⟨"y", ⟨[], some "g"⟩⟩ : Blockchain).topHash ∧
    ((⟨"x", ⟨[], some "g"⟩⟩ : Blockchain).AddBlock "h1" [] true).1.db.find "h1"
      = ((⟨"y", ⟨[], some "g"⟩⟩ : Blockchain).AddBlock "h1" [] true).1.db.find "h1" :=
  ⟨by decide, (c9_parent_read_from_store ⟨"x", ⟨[], some "g"⟩⟩ ⟨"y", ⟨[], some "g"⟩⟩
    "h1" [] rfl).1⟩

/-- Claim C6: after a successful `AddBlock`, the new head block's
`PrevBlockHash` is the pre-call head; one `Next()` on a fresh iterator
returns the new block and leaves the cursor at the pre-call head, from
which one further `Next()` returns the pre-call head block. -/
theorem c6_append_links_to_previous_head (bc : Blockchain) (h : String)
    (txs : List Transaction) (oldHead : Block)
    (hlatest : bc.db.latest = some bc.topHash)
    (hstored : bc.db.find bc.topHash = some oldHead)
    (hne : h ≠ bc.topHash) :
    (bc.AddBlock h txs true).2 = true ∧
    ∃ it1, ((bc.AddBlock h txs true).1.Iterator).Next
        = some (NewBlock h bc.topHash txs, it1) ∧
      (NewBlock h bc.topHash txs).PrevBlockHash = bc.topHash ∧
      it1.currentHash = bc.topHash ∧
      ∃ it2, it1.Next = some (oldHead, it2) := by
  have hls : bc.db.latestStr = bc.topHash := by
    simp [Store.latestStr, hlatest]
  have hstored' : lookupBlock bc.db.blocks bc.topHash = some oldHead := hstored
  refine ⟨rfl,
    ⟨bc.topHash, (bc.db.putBlock (NewBlock h bc.topHash txs)).putLatest h⟩,
    ?_, rfl, rfl,
    ⟨oldHead.PrevBlockHash, (bc.db.putBlock (NewBlock h bc.topHash txs)).putLatest h⟩,
    ?_⟩
  · simp [Blockchain.AddBlock, Blockchain.Iterator, BlockchainIterator.Next,
      Store.find, Store.putBlock, Store.putLatest, lookupBlock, NewBlock, hls]
  · simp [BlockchainIterator.Next, Store.find, Store.putBlock, Store.putLatest,
      lookupBlock, NewBlock, hne, hstored']

/-- Witness for C6: appending `"h1"` on the fresh genesis chain links the
new head to the genesis hash and makes genesis reachable in one further
step. -/
theorem c6_append_links_to_previous_head_witness :
    ((CreateBlockchain "g" []).AddBlock "h1" [] true).2 = true ∧
    ∃ it1, (((CreateBlockchain "g" []).AddBlock "h1" [] true).1.Iterator).Next
        = some (NewBlock "h1" (CreateBlockchain "g" []).topHash [], it1) ∧
      (NewBlock "h1" (CreateBlockchain "g" []).topHash []).PrevBlockHash
        = (CreateBlockchain "g" []).topHash ∧
      it1.currentHash = (CreateBlockchain "g" []).topHash ∧
      ∃ it2, it1.Next = some (GenesisBlock "g" [], it2) :=
  c6_append_links_to_previous_head (CreateBlockchain "g" []) "h1" []
    (GenesisBlock "g" []) rfl (by decide) (by decide)

/-- If the output at position `i` (scanned with running index starting at
`k`) unlocks for `address` and its index `k + i` is not in the spent list,
the scan collects `tx` — whatever else the transaction contains. -/
theorem mem_scanOuts (address : String) (tx : Transaction) (spent : List Int)
    (outs : List TXoutput) :
    ∀ (k i : Nat) (hi : i < outs.length),
      (outs.get ⟨i, hi⟩).CanBeUnlockedWith address = true →
      ((k + i : Nat) : Int) ∉ spent →
      tx ∈ scanOuts address tx spent k outs := by
  induction outs with
  | nil =>
    intro k i hi _ _
    simp at hi
  | cons o rest ih =>
    intro k i hi hu hns
    cases i with
    | zero =>
      rw [Nat.add_zero] at hns
      have hu' : o.CanBeUnlockedWith address = true := hu
      simp only [scanOuts, List.mem_append]
      left
      rw [if_neg hns, if_pos hu']
      exact List.mem_singleton.mpr rfl
    | succ j =>
      have hj : j < rest.length := Nat.lt_of_succ_lt_succ hi
      have hns' : ((k + 1 + j : Nat) : Int) ∉ spent := by
        have harr : k + 1 + j = k + (j + 1) := by omega
        rw [harr]; exact hns
      simp only [scanOuts, List.mem_append]
      right
      exact ih (k + 1) j hj hu hns'

/-- Processing further transactions never removes an already-collected
transaction from the result list. -/
theorem mem_foldl_processTx (address : String) (x : Transaction) :
    ∀ (txs : List Transaction) (acc : List Transaction × SpentMap),
      x ∈ acc.1 → x ∈ (txs.foldl (processTx address) acc).1 := by
  intro txs
  induction txs with
  | nil => intro acc hx; exact hx
  | cons t rest ih =>
    intro acc hx
    exact ih (processTx address acc t) (List.mem_append_left _ hx)

/-- Claim C5: in the resolver's walk, a transaction's outputs are matched
only against the spent map built from `acc` (prior blocks) and `txs1` (prior
transactions of the same block); its own inputs are recorded only after its
outputs are scanned, so — with no hypothesis whatsoever on `tx.In` — an
output is never skipped as spent because of an input of its own
transaction. -/
theorem c5_outputs_scanned_against_prior_spends_only (address : String)
    (acc : List Transaction × SpentMap) (txs1 txs2 : List Transaction)
    (tx : Transaction) (i : Nat) (hi : i < tx.Out.length)
    (hu : (tx.Out.get ⟨i, hi⟩).CanBeUnlockedWith address = true)
    (hns : ((i : Nat) : Int)
      ∉ spentIdxs (txs1.foldl (processTx address) acc).2 tx.ID) :
    tx ∈ ((txs1 ++ tx :: txs2).foldl (processTx address) acc).1 := by
  rw [List.foldl_append]
  show tx ∈ (txs2.foldl (processTx address)
    (processTx address (txs1.foldl (processTx address) acc) tx)).1
  refine mem_foldl_processTx address tx txs2 _ ?_
  show tx ∈ (txs1.foldl (processTx address) acc).1 ++
    scanOuts address tx
      (spentIdxs (txs1.foldl (processTx address) acc).2 tx.ID) 0 tx.Out
  refine List.mem_append_right _ ?_
  have hns0 : ((0 + i : Nat) : Int)
      ∉ spentIdxs (txs1.foldl (processTx address) acc).2 tx.ID := by
    rw [Nat.zero_add]; exact hns
  exact mem_scanOuts address tx _ tx.Out 0 i hi hu hns0

/-- Witness for C5: a transaction whose input references its own output at
position 0 is still collected for that very output — its own input, applied
only after the scan, cannot suppress it. -/
theorem c5_outputs_scanned_against_prior_spends_only_witness :
    selfSpendTx ∈ ((([] : List Transaction) ++ selfSpendTx :: []).foldl
      (processTx "w") (([] : List Transaction), ([] : SpentMap))).1 :=
  c5_outputs_scanned_against_prior_spends_only "w"
    (([] : List Transaction), ([] : SpentMap)) [] [] selfSpendTx 0
    (by decide) (by decide) (by decide)

/-- Claim C8: a coinbase transaction leaves the spent-output map untouched
regardless of the contents of its input list, while its outputs are still
scanned and can qualify it as unspent for an address. -/
theorem c8_coinbase_adds_no_spent_records (address : String)
    (acc : List Transaction × SpentMap) (tx : Transaction)
    (hcb : tx.IsCoinbase = true) :
    (processTx address acc tx).2 = acc.2 ∧
    ∀ (i : Nat) (hi : i < tx.Out.length),
      (tx.Out.get ⟨i, hi⟩).CanBeUnlockedWith address = true →
      ((i : Nat) : Int) ∉ spentIdxs acc.2 tx.ID →
      tx ∈ (processTx address acc tx).1 := by
  constructor
  · simp [processTx, hcb]
  · intro i hi hu hns
    show tx ∈ acc.1 ++ scanOuts address tx (spentIdxs acc.2 tx.ID) 0 tx.Out
    refine List.mem_append_right _ ?_
    have hns0 : ((0 + i : Nat) : Int) ∉ spentIdxs acc.2 tx.ID := by
      rw [Nat.zero_add]; exact hns
    exact mem_scanOuts address tx _ tx.Out 0 i hi hu hns0

/-- Witness for C8: a coinbase transaction with a nonempty input list leaves
the spent map empty and is still collected for its qualifying output. -/
theorem c8_coinbase_adds_no_spent_records_witness :
    (processTx "w" (([] : List Transaction), ([] : SpentMap))
      coinbaseWithInputs).2 = ([] : SpentMap) ∧
    coinbaseWithInputs ∈ (processTx "w"
      (([] : List Transaction), ([] : SpentMap)) coinbaseWithInputs).1 :=
  ⟨(c8_coinbase_adds_no_spent_records "w"
      (([] : List Transaction), ([] : SpentMap)) coinbaseWithInputs rfl).1,
   (c8_coinbase_adds_no_spent_records "w"
      (([] : List Transaction), ([] : SpentMap)) coinbaseWithInputs rfl).2 0
      (by decide) (by decide) (by decide)⟩

/-- Claim C1: with `T1`'s only output spent by the strictly later `T2`
(whose outputs pay only `B`), `FindUTXO A` is empty and `FindUTXO B`
returns exactly `T2`'s output paying `B`. -/
theorem c1_spent_output_gone_successor_found (h1 h2 idT1 idT2 A B : String)
    (v0 v1 : Nat) (hAB : A ≠ B) (hh1 : h1 ≠ "") :
    FindUTXO A (spendChain h1 h2 idT1 idT2 A B v0 v1) = [] ∧
    FindUTXO B (spendChain h1 h2 idT1 idT2 A B v0 v1) = [⟨v1, B⟩] := by
  have hBA : B ≠ A := Ne.symm hAB
  constructor <;>
    simp [FindUTXO, FindUnspendTransaction, processChain, processTx, scanOuts,
      spentIdxs, spentAppend, recordInputs, TXoutput.CanBeUnlockedWith,
      TXinput.CanUnlockOutputWith, Transaction.IsCoinbase, spendChain,
      spendT1, spendT2, List.filter, hAB, hBA, hh1]

/-- Witness for C1 at concrete addresses and hashes. -/
theorem c1_spent_output_gone_successor_found_witness :
    FindUTXO "a" (spendChain "h1" "h2" "t1" "t2" "a" "b" 5 4) = [] ∧
    FindUTXO "b" (spendChain "h1" "h2" "t1" "t2" "a" "b" 5 4) = [⟨4, "b"⟩] :=
  c1_spent_output_gone_successor_found "h1" "h2" "t1" "t2" "a" "b" 5 4
    (by decide) (by decide)

/-- One `Next` step of the caller loop, when the cursor resolves. -/
theorem walk_succ (n : Nat) (it : BlockchainIterator) (b : Block)
    (hb : it.db.find it.currentHash = some b) :
    walk (n + 1) it
      = b :: (if b.PrevBlockHash = ""
          then [] else walk n ⟨b.PrevBlockHash, it.db⟩) := by
  simp [walk, BlockchainIterator.Next, hb]

/-- A chain-linked, fully stored chain is walked back in full: the loop
returns exactly the list, newest to oldest, in `length` `Next` steps. -/
theorem walk_chainLinked (db : Store) :
    ∀ (bs : List Block), ChainLinked bs →
      (∀ b ∈ bs, db.find b.Hash = some b) →
      walk bs.length ⟨headHash bs, db⟩ = bs := by
  intro bs
  induction bs with
  | nil => intro _ _; rfl
  | cons b rest ih =>
    intro hlink hcov
    have hb : db.find (headHash (b :: rest)) = some b := hcov b (by simp)
    cases rest with
    | nil =>
      have hpe : b.PrevBlockHash = "" := hlink
      rw [show ([b] : List Block).length = 0 + 1 from rfl,
        walk_succ 0 _ b hb, if_pos hpe]
    | cons b' rest' =>
      obtain ⟨hprev, hpne, hlink'⟩ := hlink
      have hcov' : ∀ x ∈ b' :: rest', db.find x.Hash = some x :=
        fun x hx => hcov x (List.mem_cons_of_mem _ hx)
      rw [show (b :: b' :: rest').length = (b' :: rest').length + 1 from rfl,
        walk_succ _ _ b hb, if_neg hpne, hprev]
      exact congrArg (b :: ·) (ih hlink' hcov')

/-- Bootstrap establishes the invariant for the one-block genesis chain. -/
theorem represents_create (gh : String) (gtxs : List Transaction)
    (hg : gh ≠ "") :
    Represents [GenesisBlock gh gtxs] (CreateBlockchain gh gtxs) := by
  refine ⟨rfl, rfl, by simp, ?_, by simp, ?_, ?_⟩
  · show (GenesisBlock gh gtxs).PrevBlockHash = ""
    rfl
  · simp [GenesisBlock]
    exact Ne.symm hg
  · intro b hb
    rw [List.mem_singleton.mp hb]
    simp [CreateBlockchain, Store.find, lookupBlock, GenesisBlock]

/-- A committing `AddBlock` with a fresh nonempty hash preserves the
invariant, stacking the factory's block on the chain. -/
theorem represents_addBlock (bs : List Block) (bc : Blockchain) (h : String)
    (txs : List Transaction) (hrep : Represents bs bc) (hne : h ≠ "")
    (hfresh : h ∉ bs.map Block.Hash) :
    Represents (NewBlock h bc.topHash txs :: bs) (bc.AddBlock h txs true).1 := by
  obtain ⟨htop, hlatest, hnil, hlink, hnodup, hnomem, hcov⟩ := hrep
  have hls : bc.db.latestStr = bc.topHash := by
    rw [htop]; simp [Store.latestStr, hlatest]
  have haddeq : (bc.AddBlock h txs true).1
      = ⟨h, ⟨(h, NewBlock h bc.topHash txs) :: bc.db.blocks, some h⟩⟩ := by
    rw [show NewBlock h bc.topHash txs = NewBlock h bc.db.latestStr txs from
      by rw [hls]]
    rfl
  rw [haddeq]
  refine ⟨rfl, rfl, by simp, ?_, ?_, ?_, ?_⟩
  · cases bs with
    | nil => exact absurd rfl hnil
    | cons b0 rest =>
      have hb0 : b0.Hash ≠ "" := by
        intro hc
        exact hnomem (by rw [← hc]; exact List.mem_map_of_mem Block.Hash (by simp))
      refine ⟨htop, ?_, hlink⟩
      rw [show (NewBlock h bc.topHash txs).PrevBlockHash = bc.topHash from rfl,
        htop]
      exact hb0
  · exact List.nodup_cons.mpr ⟨hfresh, hnodup⟩
  · intro hmem
    rcases List.mem_cons.mp hmem with hc | hc
    · exact hne hc.symm
    · exact hnomem hc
  · intro b hb
    rcases List.mem_cons.mp hb with hb | hb
    · rw [hb]
      simp [Store.find, lookupBlock, NewBlock]
    · have hhb : h ≠ b.Hash :=
        fun hc => hfresh (hc ▸ List.mem_map_of_mem Block.Hash hb)
      show lookupBlock ((h, NewBlock h bc.topHash txs) :: bc.db.blocks) b.Hash
        = some b
      rw [lookupBlock, if_neg hhb]
      exact hcov b hb

/-- The invariant is preserved along any fresh `AddBlock` sequence. -/
theorem represents_addBlocks :
    ∀ (l : List (String × List Transaction)) (bs : List Block)
      (bc : Blockchain), Represents bs bc →
      FreshFor l (bs.map Block.Hash) →
      Represents (extendChain bs l) (addBlocks bc l) := by
  intro l
  induction l with
  | nil => intro bs bc hrep _; exact hrep
  | cons p rest ih =>
    obtain ⟨h, txs⟩ := p
    intro bs bc hrep hf
    obtain ⟨hne, hfresh, hf'⟩ := hf
    have htop := hrep.1
    show Represents (extendChain (NewBlock h (headHash bs) txs :: bs) rest)
      (addBlocks (bc.AddBlock h txs true).1 rest)
    rw [← htop]
    exact ih (NewBlock h bc.topHash txs :: bs) (bc.AddBlock h txs true).1
      (represents_addBlock bs bc h txs hrep hne hfresh) hf'

/-- `extendChain` adds one block per append. -/
theorem extendChain_length :
    ∀ (l : List (String × List Transaction)) (bs : List Block),
      (extendChain bs l).length = bs.length + l.length := by
  intro l
  induction l with
  | nil => intro bs; rfl
  | cons p rest ih =>
    obtain ⟨h, txs⟩ := p
    intro bs
    show (extendChain (NewBlock h (headHash bs) txs :: bs) rest).length
      = bs.length + (rest.length + 1)
    rw [ih]
    simp
    omega

/-- `extendChain` only stacks blocks in front of the starting chain. -/
theorem extendChain_append :
    ∀ (l : List (String × List Transaction)) (bs : List Block),
      ∃ front, extendChain bs l = front ++ bs := by
  intro l
  induction l with
  | nil => intro bs; exact ⟨[], rfl⟩
  | cons p rest ih =>
    obtain ⟨h, txs⟩ := p
    intro bs
    obtain ⟨front, hfront⟩ := ih (NewBlock h (headHash bs) txs :: bs)
    refine ⟨front ++ [NewBlock h (headHash bs) txs], ?_⟩
    show extendChain (NewBlock h (headHash bs) txs :: bs) rest = _
    rw [hfront, List.append_assoc]
    rfl

/-- Claim C7: a chain built from genesis by `N` successful `AddBlock` calls
(with fresh nonempty hashes) is walked back from the head in full: the
caller loop returns exactly the `N + 1` chain blocks, strictly newest to
oldest with no block skipped or repeated (distinct hashes), and the last
returned block — genesis — has an empty `PrevBlockHash`. -/
theorem c7_walk_returns_whole_chain (gh : String) (gtxs : List Transaction)
    (l : List (String × List Transaction)) (hg : gh ≠ "")
    (hf : FreshFor l [gh]) :
    walk (l.length + 1) (addBlocks (CreateBlockchain gh gtxs) l).Iterator
      = extendChain [GenesisBlock gh gtxs] l ∧
    (extendChain [GenesisBlock gh gtxs] l).length = l.length + 1 ∧
    ((extendChain [GenesisBlock gh gtxs] l).map Block.Hash).Nodup ∧
    (extendChain [GenesisBlock gh gtxs] l).getLast?
      = some (GenesisBlock gh gtxs) ∧
    (GenesisBlock gh gtxs).PrevBlockHash = "" := by
  have hrep0 := represents_create gh gtxs hg
  have hf' : FreshFor l ([GenesisBlock gh gtxs].map Block.Hash) := hf
  have hrep := represents_addBlocks l [GenesisBlock gh gtxs]
    (CreateBlockchain gh gtxs) hrep0 hf'
  obtain ⟨htop, hlatest, hnil, hlink, hnodup, hnomem, hcov⟩ := hrep
  have hlen := extendChain_length l [GenesisBlock gh gtxs]
  have hlen' : (extendChain [GenesisBlock gh gtxs] l).length = l.length + 1 := by
    rw [hlen]; simp; omega
  refine ⟨?_, hlen', hnodup, ?_, rfl⟩
  · have hit : (addBlocks (CreateBlockchain gh gtxs) l).Iterator
        = ⟨headHash (extendChain [GenesisBlock gh gtxs] l),
           (addBlocks (CreateBlockchain gh gtxs) l).db⟩ := by
      simp [Blockchain.Iterator, htop]
    rw [← hlen', hit]
    exact walk_chainLinked _ _ hlink hcov
  · obtain ⟨front, hfr⟩ := extendChain_append l [GenesisBlock gh gtxs]
    rw [hfr]
    exact List.getLast?_concat _

/-- Witness for C7: two appends on a fresh genesis chain; the walk of fuel
3 returns the three blocks newest to oldest and ends at genesis. -/
theorem c7_walk_returns_whole_chain_witness :
    walk 3 (addBlocks (CreateBlockchain "g" [])
        [("h1", []), ("h2", [])]).Iterator
      = extendChain [GenesisBlock "g" []] [("h1", []), ("h2", [])] ∧
    (extendChain [GenesisBlock "g" []] [("h1", []), ("h2", [])]).length = 3 ∧
    ((extendChain [GenesisBlock "g" []]
        [("h1", []), ("h2", [])]).map Block.Hash).Nodup ∧
    (extendChain [GenesisBlock "g" []] [("h1", []), ("h2", [])]).getLast?
      = some (GenesisBlock "g" []) ∧
    (GenesisBlock "g" []).PrevBlockHash = "" :=
  c7_walk_returns_whole_chain "g" [] [("h1", []), ("h2", [])] (by decide)
    (by simp only [FreshFor]; decide)
